import Mathlib

/-!
Shallow embedding of the financial_analyzer core (src/processor.py,
src/signals.py, src/data_fetcher.py + src/models.py, src/main.py).

Floats are modelled as rationals; a pandas NaN / missing value is
modelled as `none` of an `Option` type.  Dates are modelled as ISO-8601
strings, whose lexicographic order coincides with chronological order.
-/

namespace FA

/-- A normalized daily price bar (the output of `DailyPrice` validation in
src/models.py: date, open, high, low, close, volume). -/
structure Bar where
  date : String
  op : Rat
  hi : Rat
  lo : Rat
  close : Rat
  volume : Int
deriving DecidableEq, Repr

/-- Default bar used only for out-of-range `getD` access. -/
def dfltBar : Bar := ⟨"", 0, 0, 0, 0, 0⟩

/-- Lexicographic less-or-equal on character lists, by character code. -/
def dataLe : List Char → List Char → Bool
  | [], _ => true
  | _ :: _, [] => false
  | a :: as, b :: bs =>
    if a < b then true else if b < a then false else dataLe as bs

/-- The chronological order on ISO date strings: lexicographic order on
their characters (it agrees with the standard order on `String`, see
`dateLe_iff_le` below). -/
def dateLe (a b : String) : Bool := dataLe a.data b.data

/-- `prices.sort_values("date")`: stable ascending sort by date. -/
def sortBars (l : List Bar) : List Bar :=
  List.insertionSort (fun a b => dateLe a.date b.date = true) l

/-- The rolling window ending at index `i` with window size `w` and
`min_periods=1`: the last `min (i+1) w` closes up to and including `i`.
This is `close[max(0, i-w+1) .. i]`. -/
def rollingWindow (w : Nat) (xs : List Rat) (i : Nat) : List Rat :=
  (xs.take (i + 1)).drop (i + 1 - w)

/-- Maximum of a list of rationals (`0` on the empty list, which the code
never hits because `min_periods=1` windows are nonempty). -/
def listMax : List Rat → Rat
  | [] => 0
  | x :: t => t.foldl max x

/-- `rolling(window=w, min_periods=1).mean()` at index `i`. -/
def smaAt (w : Nat) (xs : List Rat) (i : Nat) : Rat :=
  let s := rollingWindow w xs i
  s.sum / (s.length : Rat)

/-- `rolling(window=252, min_periods=1).max()` at index `i`. -/
def rollMaxAt (w : Nat) (xs : List Rat) (i : Nat) : Rat :=
  listMax (rollingWindow w xs i)

/-- `(close - m) / m * 100`; pandas produces a non-finite value (NaN for
0/0) when the rolling max `m` is zero, modelled as `none`. -/
def pctFromHigh (c m : Rat) : Option Rat :=
  if m = 0 then none else some ((c - m) / m * 100)

/-- One row of the processor output: the bar columns, the four technical
indicator columns, the merged fundamentals columns (`fvals`, aligned with
the table's `fundCols`), and the three ratio columns. -/
structure MetricsRow where
  date : String
  op : Rat
  hi : Rat
  lo : Rat
  close : Rat
  volume : Int
  sma50 : Rat
  sma200 : Rat
  high52w : Rat
  pct : Option Rat
  fvals : List (Option Rat)
  bvps : Option Rat
  pb : Option Rat
  ev : Option Rat
deriving DecidableEq, Repr

def dfltRow : MetricsRow :=
  ⟨"", 0, 0, 0, 0, 0, 0, 0, 0, none, [], none, none, none⟩

/-- The indicator block of `process_data` (both copies, lines 13-17 and
62-68 of src/processor.py): each sorted price row widened with SMA50,
SMA200, 52w high and pct-from-high computed over the closes. -/
def addIndicators (s : List Bar) : List MetricsRow :=
  let closes := s.map Bar.close
  (List.range s.length).map (fun i =>
    let b := s.getD i dfltBar
    let m := rollMaxAt 252 closes i
    { date := b.date, op := b.op, hi := b.hi, lo := b.lo, close := b.close,
      volume := b.volume,
      sma50 := smaAt 50 closes i, sma200 := smaAt 200 closes i,
      high52w := m, pct := pctFromHigh b.close m,
      fvals := [], bvps := none, pb := none, ev := none })

/-- The transposed fundamentals frame `fdf` (rows keyed by raw report-date
string, columns `cols`, `none` for a NaN cell). -/
structure FundTable where
  cols : List String
  frows : List (String × List (Option Rat))
deriving DecidableEq, Repr

/-- The flat company-info mapping (`info`); `none` models an absent key. -/
structure Info where
  bookValue : Option Rat
  totalAssets : Option Rat
  sharesOutstanding : Option Rat
  enterpriseValue : Option Rat
deriving DecidableEq, Repr

def emptyInfo : Info := ⟨none, none, none, none⟩

/-- Raw fetch output handed to `process_data`: prices, an optional
fundamentals frame (`none` models `None` or a T-less dict), and info. -/
structure RawInput where
  prices : List Bar
  fundamentals : Option FundTable
  info : Info

/-- Python truthiness of an optional number: present and non-zero. -/
def truthy : Option Rat → Bool
  | some v => v ≠ 0
  | none => false

/-- Whether a raw date string parses under `pd.to_datetime`: modelled as
ISO `YYYY-MM-DD` well-formedness. -/
def isIsoDate (s : String) : Bool :=
  let cs := s.toList
  cs.length = 10 &&
    (List.range 10).all (fun i =>
      if i = 4 ∨ i = 7 then cs.getD i ' ' = '-' else (cs.getD i ' ').isDigit)

/-- `pd.to_datetime(fdf.index)` raises (caught by the `except`) as soon as
one index entry fails to parse; it succeeds only when all do. -/
def parseFundDates (t : FundTable) : Option FundTable :=
  if t.frows.all (fun r => isIsoDate r.1) then some t else none

/-- Value of column `c` in a fundamentals row with cells `vs` (aligned
with `cols`); `none` when the column is missing or the cell is NaN. -/
def cellAt (cols : List String) (vs : List (Option Rat)) (c : String) : Option Rat :=
  ((cols.zip vs).find? (fun p => p.1 = c)).bind Prod.snd

/-- `fdf = fdf[keep_cols]` when at least one recognized column is present;
otherwise `fdf` is kept whole (the `if keep_cols:` guard). -/
def keepRecognized (t : FundTable) : FundTable :=
  let kc := (["TotalAssets", "TotalLiab", "OrdinarySharesNumber"]).filter
    (fun c => t.cols.contains c)
  if kc.isEmpty then t
  else { cols := kc,
         frows := t.frows.map (fun r => (r.1, kc.map (cellAt t.cols r.2))) }

/-- `prices.merge(fdf, left_index=True, right_index=True, how="left")`:
every price row is kept; a row whose date matches report rows is repeated
once per match carrying that report's cells, an unmatched row carries all-
NaN cells. -/
def leftJoin (rows : List MetricsRow) (t : FundTable) : List MetricsRow :=
  rows.flatMap (fun r =>
    match t.frows.filter (fun fr => fr.1 = r.date) with
    | [] => [{ r with fvals := t.cols.map (fun _ => none) }]
    | ms => ms.map (fun fr =>
        { r with fvals := t.cols.map (cellAt t.cols fr.2) }))

/-- One step of `merged.ffill()`: a NaN cell takes the accumulator, a
non-NaN cell replaces it.  Applied to every nullable column of the merged
frame: the fundamentals cells and the pct column (the only base column
that can hold NaN). -/
def ffillRows (accP : Option Rat) (accF : List (Option Rat)) :
    List MetricsRow → List MetricsRow
  | [] => []
  | r :: rest =>
    let p := match r.pct with | some v => some v | none => accP
    let fv := (r.fvals.zip accF).map (fun q =>
      match q.1 with | some v => some v | none => q.2)
    { r with pct := p, fvals := fv } :: ffillRows p fv rest

/-- The fundamentals-merge block of `process_data` (lines 71-91): merge
and forward-fill when a non-empty frame is supplied and all its dates
parse, otherwise (including the exception path) leave the table unmerged.
Returns the merged column names and the rows. -/
def mergeFund (rows : List MetricsRow) :
    Option FundTable → List String × List MetricsRow
  | none => ([], rows)
  | some t =>
    if t.frows.isEmpty || t.cols.isEmpty then ([], rows)
    else
      match parseFundDates t with
      | none => ([], rows)
      | some t1 =>
        let t2 := keepRecognized t1
        (t2.cols, ffillRows none (t2.cols.map (fun _ => none)) (leftJoin rows t2))

/-- `prices[c].ffill().iloc[-1]`: the last non-NaN value of merged column
`c`, `none` when the column never holds a value. -/
def lastFfill (cols : List String) (rows : List MetricsRow) (c : String) : Option Rat :=
  rows.reverse.findSome? (fun r => cellAt cols r.fvals c)

/-- The BVPS resolution of the second `process_data` (lines 96-112).
Outer `none` models the Python variable staying `None`; `some none`
models it holding NaN (possible when `TotalAssets` is all-NaN). -/
def resolveBvps (inf : Info) (cols : List String) (rows : List MetricsRow) :
    Option (Option Rat) :=
  match inf.bookValue with
  | some v =>
    if v ≠ 0 then some (some v) else resolveBvpsDerived cols rows
  | none => resolveBvpsDerived cols rows
where
  /-- The `elif` branch: derive from the merged columns. -/
  resolveBvpsDerived (cols : List String) (rows : List MetricsRow) :
      Option (Option Rat) :=
    if cols.contains "TotalAssets" && cols.contains "OrdinarySharesNumber" &&
        rows.any (fun r => (cellAt cols r.fvals "OrdinarySharesNumber").isSome) then
      match lastFfill cols rows "OrdinarySharesNumber" with
      | some s => if s ≠ 0 ∧ 0 < s then
          (match lastFfill cols rows "TotalAssets" with
           | some a => some (some (a / s))
           | none => some none)
        else none
      | none => none
    else none

/-- The ratio block shared by both copies (`if bvps and bvps > 0` plus the
enterprise-value column): broadcast constants across every row. -/
def applyRatios (bv : Option (Option Rat)) (inf : Info)
    (rows : List MetricsRow) : List MetricsRow :=
  let evv : Option Rat :=
    match inf.enterpriseValue with
    | some v => if v ≠ 0 then some v else none
    | none => none
  match bv with
  | some (some v) =>
    if v ≠ 0 ∧ 0 < v then
      rows.map (fun r => { r with bvps := some v, pb := some (r.close / v), ev := evv })
    else rows.map (fun r => { r with bvps := none, pb := none, ev := evv })
  | _ => rows.map (fun r => { r with bvps := none, pb := none, ev := evv })

/-- The processor output: the names of the merged fundamentals columns and
the metrics rows. -/
structure MetricsTable where
  fundCols : List String
  rows : List MetricsRow
deriving DecidableEq, Repr

/-- The second (shadowing) definition of `process_data`
(src/processor.py lines 51-126): indicators, fundamentals merge with
forward-fill, then the broadcast ratio columns. -/
def process_data (raw : RawInput) : MetricsTable :=
  let s := sortBars raw.prices
  let ind := addIndicators s
  let fc_rows := mergeFund ind raw.fundamentals
  { fundCols := fc_rows.1,
    rows := applyRatios (resolveBvps raw.info fc_rows.1 fc_rows.2) raw.info fc_rows.2 }

/-- The BVPS resolution of the first `process_data` (lines 23-34): info
fields only, `info.get(k) or None` collapsing falsy values. -/
def resolveBvpsV1 (inf : Info) : Option Rat :=
  let derived : Option Rat :=
    match (match inf.totalAssets with
           | some v => if v ≠ 0 then some v else none
           | none => none),
          (match inf.sharesOutstanding with
           | some v => if v ≠ 0 then some v else none
           | none => none) with
    | some a, some s => if s ≠ 0 ∧ 0 < s then some (a / s) else none
    | _, _ => none
  match inf.bookValue with
  | some v => if v ≠ 0 then some v else derived
  | none => derived

/-- The first definition of `process_data` (src/processor.py lines 9-49):
same indicator block, no fundamentals merge, BVPS from info only. -/
def process_data_v1 (raw : RawInput) : MetricsTable :=
  let s := sortBars raw.prices
  let ind := addIndicators s
  { fundCols := [],
    rows := applyRatios ((resolveBvpsV1 raw.info).map some) raw.info ind }

/-! ## Signals (src/signals.py) -/

/-- The projection of a metrics row used by the crossover detectors. -/
structure SignalRow where
  date : String
  sma50 : Rat
  sma200 : Rat
deriving DecidableEq, Repr

def dfltSig : SignalRow := ⟨"", 0, 0⟩

/-- `df.sort_values("date")` inside the detectors. -/
def sortSignals (l : List SignalRow) : List SignalRow :=
  List.insertionSort (fun a b => dateLe a.date b.date = true) l

/-- Each row paired with its `shift(1)` predecessor; `none` at row 0 is
the NaN produced by `shift`, whose comparisons are all False. -/
def shiftPairs (s : List SignalRow) : List (SignalRow × Option SignalRow) :=
  s.zip (none :: s.map some)

/-- `detect_golden_crossover`: rows where
`(SMA50 > SMA200) & (SMA50.shift(1) <= SMA200.shift(1))`, as date
strings in table order. -/
def detect_golden_crossover (df : List SignalRow) : List String :=
  (shiftPairs (sortSignals df)).filterMap (fun p =>
    match p.2 with
    | none => none
    | some prev =>
      if prev.sma50 ≤ prev.sma200 ∧ p.1.sma200 < p.1.sma50 then some p.1.date
      else none)

/-- `detect_death_cross`: rows where
`(SMA50 < SMA200) & (SMA50.shift(1) >= SMA200.shift(1))`. -/
def detect_death_cross (df : List SignalRow) : List String :=
  (shiftPairs (sortSignals df)).filterMap (fun p =>
    match p.2 with
    | none => none
    | some prev =>
      if prev.sma200 ≤ prev.sma50 ∧ p.1.sma50 < p.1.sma200 then some p.1.date
      else none)

/-! ## Data-quality classification (src/main.py lines 88-125) -/

/-- The seven core fields checked on the latest row. -/
def coreFields : List String :=
  ["SMA50", "SMA200", "52w_high", "pct_from_52w_high", "bvps",
   "pb_ratio", "enterprise_value"]

/-- `f in latest and not pd.isna(latest[f])` on a row modelled as an
association list from column name to optional value. -/
def fieldAvailable (row : List (String × Option Rat)) (f : String) : Bool :=
  match row.find? (fun p => p.1 = f) with
  | some p => p.2.isSome
  | none => false

/-- `assess_data_quality`: "missing" on an empty table, else classify the
last row by how many core fields are present and non-null. -/
def assess_data_quality (df : List (List (String × Option Rat))) : String :=
  if df.isEmpty then "missing"
  else
    let latest := df.getLastD []
    let avail := (coreFields.filter (fun f => fieldAvailable latest f)).length
    if avail = coreFields.length then "complete"
    else if 0 < avail then "partial"
    else "missing"

/-! ## Price-series normalization (src/data_fetcher.py + src/models.py) -/

/-- A raw bar record before validation: each field either coerces to its
semantic type (`some`) or does not (`none`). -/
structure RawBar where
  date : String
  op : Option Rat
  hi : Option Rat
  lo : Option Rat
  close : Option Rat
  volume : Option Int
deriving DecidableEq, Repr

/-- `DailyPrice(**row)` (src/models.py lines 6-14): pure type coercion of
the six fields.  The model declares no relational constraint between
`high` and `low`. -/
def validateRow (r : RawBar) : Option Bar :=
  if isIsoDate r.date then
    match r.op, r.hi, r.lo, r.close, r.volume with
    | some o, some h, some l, some c, some v => some ⟨r.date, o, h, l, c, v⟩
    | _, _, _, _, _ => none
  else none

/-- The per-row validation loop of `fetch_stock_data` (lines 52-60): each
row is validated independently, failures are logged and skipped. -/
def normalizeBars (rows : List RawBar) : List Bar :=
  rows.filterMap validateRow

/-! ## Specification-level formulations used to state the claims -/

/-- Golden-cross condition of row `i` of a table `s` in index form:
`i > 0`, `SMA50[i-1] <= SMA200[i-1]` and `SMA50[i] > SMA200[i]`. -/
def goldenCondAt (s : List SignalRow) (i : Nat) : Bool :=
  decide (0 < i) &&
  decide ((s.getD (i - 1) dfltSig).sma50 ≤ (s.getD (i - 1) dfltSig).sma200) &&
  decide ((s.getD i dfltSig).sma200 < (s.getD i dfltSig).sma50)

/-- Death-cross condition of row `i` in index form. -/
def deathCondAt (s : List SignalRow) (i : Nat) : Bool :=
  decide (0 < i) &&
  decide ((s.getD (i - 1) dfltSig).sma200 ≤ (s.getD (i - 1) dfltSig).sma50) &&
  decide ((s.getD i dfltSig).sma50 < (s.getD i dfltSig).sma200)

/-- The dates of exactly the rows satisfying an index condition. -/
def crossDatesAt (cond : List SignalRow → Nat → Bool) (s : List SignalRow) :
    List String :=
  ((List.range s.length).filter (cond s)).map (fun i => (s.getD i dfltSig).date)

/-! ## Shift/zip to index-form correspondence -/

theorem filterMap_zip_shift {α β : Type} (d : α) (G : α × Option α → Option β) :
    ∀ (t : List α) (y : Option α),
      (t.zip (y :: t.map some)).filterMap G
      = (List.range t.length).filterMap
          (fun j => G (t.getD j d, if j = 0 then y else some (t.getD (j - 1) d))) := by
  intro t
  induction t with
  | nil => intro y; simp
  | cons c r ih =>
    intro y
    have step :
        ((c :: r).zip (y :: (c :: r).map some)).filterMap G
          = (G (c, y)).toList ++ (r.zip (some c :: r.map some)).filterMap G := by
      simp [List.filterMap_cons]
      cases G (c, y) <;> simp
    rw [step, ih (some c)]
    rw [List.length_cons, List.range_succ_eq_map, List.filterMap_cons,
      List.filterMap_map]
    have hcongr :
        (List.range r.length).filterMap
            ((fun j => G ((c :: r).getD j d,
              if j = 0 then y else some ((c :: r).getD (j - 1) d))) ∘ (· + 1))
          = (List.range r.length).filterMap
            (fun j => G (r.getD j d, if j = 0 then some c else some (r.getD (j - 1) d))) := by
      apply List.filterMap_congr
      intro j _
      simp only [Function.comp]
      have h1 : (c :: r).getD (j + 1) d = r.getD j d := by simp
      have h2 : (if j + 1 = 0 then y else some ((c :: r).getD (j + 1 - 1) d))
          = (if j = 0 then some c else some (r.getD (j - 1) d)) := by
        cases j with
        | zero => simp
        | succ k => simp
      rw [h1, h2]
    rw [hcongr]
    cases hG : G (c, y) <;> simp [hG]

/-- `filterMap` with an if-then-some-else-none body is filter-then-map. -/
theorem filterMap_ite_eq_filter_map {α β : Type} (p : α → Bool) (f : α → β)
    (l : List α) :
    l.filterMap (fun a => if p a then some (f a) else none)
      = (l.filter p).map f := by
  induction l with
  | nil => rfl
  | cons a t ih =>
    by_cases h : p a <;> simp [List.filterMap_cons, List.filter_cons, h, ih]

/-- Index-form characterization of the golden-cross detector. -/
theorem detect_golden_eq (df : List SignalRow) :
    detect_golden_crossover df = crossDatesAt goldenCondAt (sortSignals df) := by
  unfold detect_golden_crossover shiftPairs crossDatesAt
  rw [filterMap_zip_shift dfltSig, ← filterMap_ite_eq_filter_map]
  apply List.filterMap_congr
  intro j _
  cases j with
  | zero => simp [goldenCondAt]
  | succ k =>
    simp [goldenCondAt, Nat.succ_sub_one, and_assoc]

/-- Index-form characterization of the death-cross detector. -/
theorem detect_death_eq (df : List SignalRow) :
    detect_death_cross df = crossDatesAt deathCondAt (sortSignals df) := by
  unfold detect_death_cross shiftPairs crossDatesAt
  rw [filterMap_zip_shift dfltSig, ← filterMap_ite_eq_filter_map]
  apply List.filterMap_congr
  intro j _
  cases j with
  | zero => simp [deathCondAt]
  | succ k =>
    simp [deathCondAt, Nat.succ_sub_one, and_assoc]

/-- `dataLe` agrees with the lexicographic strict order on char lists. -/
theorem dataLe_iff : ∀ x y : List Char,
    dataLe x y = true ↔ ¬ List.Lex (· < ·) y x
  | [], [] => by
    simp only [dataLe, true_iff]
    intro h; cases h
  | [], _ :: _ => by
    simp only [dataLe, true_iff]
    intro h; cases h
  | a :: as, [] => by
    simp only [dataLe, Bool.false_eq_true, false_iff, not_not]
    exact List.Lex.nil
  | a :: as, b :: bs => by
    rcases lt_trichotomy a b with h | h | h
    · simp only [dataLe, if_pos h, true_iff]
      intro hlex
      cases hlex with
      | cons _ => exact absurd h (lt_irrefl _)
      | rel h2 => exact absurd h (lt_asymm h2)
    · subst h
      simp only [dataLe, if_neg (lt_irrefl a)]
      rw [dataLe_iff as bs]
      constructor
      · intro hn hlex
        cases hlex with
        | cons h1 => exact hn h1
        | rel h2 => exact absurd h2 (lt_irrefl _)
      · intro hn h1
        exact hn (List.Lex.cons h1)
    · have h1 : ¬ a < b := lt_asymm h
      simp only [dataLe, if_neg h1, if_pos h, Bool.false_eq_true, false_iff,
        not_not]
      exact List.Lex.rel h

/-- `dateLe` is the standard lexicographic order on strings. -/
theorem dateLe_iff_le (a b : String) : dateLe a b = true ↔ a ≤ b := by
  rw [String.le_iff_toList_le, ← not_lt]
  exact dataLe_iff a.data b.data

instance : IsTotal SignalRow (fun a b => dateLe a.date b.date = true) :=
  ⟨fun a b => by
    rcases le_total a.date b.date with h | h
    · exact Or.inl ((dateLe_iff_le _ _).mpr h)
    · exact Or.inr ((dateLe_iff_le _ _).mpr h)⟩

instance : IsTrans SignalRow (fun a b => dateLe a.date b.date = true) :=
  ⟨fun _ _ _ hab hbc => (dateLe_iff_le _ _).mpr
    (le_trans ((dateLe_iff_le _ _).mp hab) ((dateLe_iff_le _ _).mp hbc))⟩

instance : IsTotal Bar (fun a b => dateLe a.date b.date = true) :=
  ⟨fun a b => by
    rcases le_total a.date b.date with h | h
    · exact Or.inl ((dateLe_iff_le _ _).mpr h)
    · exact Or.inr ((dateLe_iff_le _ _).mpr h)⟩

instance : IsTrans Bar (fun a b => dateLe a.date b.date = true) :=
  ⟨fun _ _ _ hab hbc => (dateLe_iff_le _ _).mpr
    (le_trans ((dateLe_iff_le _ _).mp hab) ((dateLe_iff_le _ _).mp hbc))⟩

theorem sortSignals_sorted (df : List SignalRow) :
    (sortSignals df).Sorted (fun a b => dateLe a.date b.date = true) :=
  List.sorted_insertionSort _ df

theorem sortSignals_perm (df : List SignalRow) : List.Perm (sortSignals df) df :=
  List.perm_insertionSort _ df

theorem sortBars_sorted (l : List Bar) :
    (sortBars l).Sorted (fun a b => dateLe a.date b.date = true) :=
  List.sorted_insertionSort _ l

theorem sortBars_perm (l : List Bar) : List.Perm (sortBars l) l :=
  List.perm_insertionSort _ l

/-- In a date-sorted table, row dates are monotone in the index. -/
theorem sorted_date_getD_mono (s : List SignalRow)
    (hs : s.Sorted (fun a b => dateLe a.date b.date = true)) {i j : Nat}
    (hij : i < j) (hj : j < s.length) :
    (s.getD i dfltSig).date ≤ (s.getD j dfltSig).date := by
  have hi : i < s.length := lt_trans hij hj
  rw [List.getD_eq_getElem _ _ hi, List.getD_eq_getElem _ _ hj]
  have h := List.pairwise_iff_get.mp hs ⟨i, hi⟩ ⟨j, hj⟩ hij
  exact (dateLe_iff_le _ _).mp (by simpa using h)

/-- The event-date list extracted by an index condition from a sorted
table is ascending. -/
theorem crossDatesAt_sorted (cond : List SignalRow → Nat → Bool)
    (s : List SignalRow)
    (hs : s.Sorted (fun a b => dateLe a.date b.date = true)) :
    (crossDatesAt cond s).Sorted (· ≤ ·) := by
  unfold crossDatesAt
  rw [List.Sorted, List.pairwise_map]
  have h1 : ((List.range s.length).filter (cond s)).Pairwise (· < ·) :=
    (List.pairwise_lt_range s.length).sublist (List.filter_sublist _)
  refine h1.imp_of_mem ?_
  intro a b ha hb hab
  have hb' : b < s.length :=
    List.mem_range.mp (List.mem_of_mem_filter hb)
  exact sorted_date_getD_mono s hs hab hb'

/-- Rows of the table land in the sorted table, hence satisfy per-row
facts that hold of every input row. -/
theorem getD_sort_mem (df : List SignalRow) {i : Nat}
    (hi : i < (sortSignals df).length) :
    (sortSignals df).getD i dfltSig ∈ df := by
  rw [List.getD_eq_getElem _ _ hi]
  exact (sortSignals_perm df).mem_iff.mp (List.getElem_mem hi)

/-- C2: on a metrics table with date/SMA50/SMA200 columns,
`detect_golden_crossover` returns exactly the dates, ascending, of the
sorted rows `i > 0` with `SMA50[i] > SMA200[i]` and
`SMA50[i-1] <= SMA200[i-1]` (so row 0 is never flagged and mere equality
never counts), `detect_death_cross` dually, and a table with SMA50
strictly below SMA200 everywhere yields an empty list from both. -/
theorem detect_crossover_exact (df : List SignalRow) :
    detect_golden_crossover df = crossDatesAt goldenCondAt (sortSignals df)
    ∧ detect_death_cross df = crossDatesAt deathCondAt (sortSignals df)
    ∧ (detect_golden_crossover df).Sorted (· ≤ ·)
    ∧ (detect_death_cross df).Sorted (· ≤ ·)
    ∧ ((∀ r ∈ df, r.sma50 < r.sma200) →
        detect_golden_crossover df = [] ∧ detect_death_cross df = []) := by
  refine ⟨detect_golden_eq df, detect_death_eq df, ?_, ?_, ?_⟩
  · rw [detect_golden_eq]
    exact crossDatesAt_sorted _ _ (sortSignals_sorted df)
  · rw [detect_death_eq]
    exact crossDatesAt_sorted _ _ (sortSignals_sorted df)
  · intro hbelow
    constructor
    · rw [detect_golden_eq]
      unfold crossDatesAt
      have hf : (List.range (sortSignals df).length).filter
          (goldenCondAt (sortSignals df)) = [] := by
        rw [List.filter_eq_nil_iff]
        intro i hir
        have hi : i < (sortSignals df).length := List.mem_range.mp hir
        have hmem := getD_sort_mem df hi
        have hlt := hbelow _ hmem
        simp only [goldenCondAt, Bool.and_eq_true, decide_eq_true_eq]
        rintro ⟨⟨-, -⟩, hgt⟩
        exact lt_asymm hlt hgt
      rw [hf]; rfl
    · rw [detect_death_eq]
      unfold crossDatesAt
      have hf : (List.range (sortSignals df).length).filter
          (deathCondAt (sortSignals df)) = [] := by
        rw [List.filter_eq_nil_iff]
        intro i hir
        have hi : i < (sortSignals df).length := List.mem_range.mp hir
        have hi1 : i - 1 < (sortSignals df).length :=
          lt_of_le_of_lt (Nat.sub_le i 1) hi
        have hmem := getD_sort_mem df hi1
        have hlt := hbelow _ hmem
        simp only [deathCondAt, Bool.and_eq_true, decide_eq_true_eq]
        rintro ⟨⟨-, hle⟩, -⟩
        exact lt_irrefl _ (lt_of_le_of_lt hle hlt)
      rw [hf]; rfl

/-- The 10-row example table of the spec: SMA50 = [1,1,1,1,2,2,2,2,3,3],
SMA200 = [1,1,1,1,1,1.5,1.7,2.5,2.9,2] over 2020-01-01..2020-01-10. -/
def c8df : List SignalRow :=
  [⟨"2020-01-01", 1, 1⟩, ⟨"2020-01-02", 1, 1⟩, ⟨"2020-01-03", 1, 1⟩,
   ⟨"2020-01-04", 1, 1⟩, ⟨"2020-01-05", 2, 1⟩, ⟨"2020-01-06", 2, mkRat 3 2⟩,
   ⟨"2020-01-07", 2, mkRat 17 10⟩, ⟨"2020-01-08", 2, mkRat 5 2⟩, ⟨"2020-01-09", 3, mkRat 29 10⟩,
   ⟨"2020-01-10", 3, 2⟩]

/-- C8 counterexample: on the spec's example series the detectors fire
golden at 2020-01-05 AND 2020-01-09 and death at 2020-01-08 — not, as the
claim states, golden only at 2020-01-05 and death at 2020-01-10. -/
theorem c8_spec_example_is_wrong :
    detect_golden_crossover c8df = ["2020-01-05", "2020-01-09"]
    ∧ detect_death_cross c8df = ["2020-01-08"]
    ∧ ¬(detect_golden_crossover c8df = ["2020-01-05"]
        ∧ detect_death_cross c8df = ["2020-01-10"]) := by
  decide

/-- C8 amended: on the spec's example series, golden crosses fire exactly
at indices 4 and 8 (2020-01-05, 2020-01-09) and the death cross exactly
at index 7 (2020-01-08). -/
theorem c8_crosses_on_example :
    detect_golden_crossover c8df = ["2020-01-05", "2020-01-09"]
    ∧ detect_death_cross c8df = ["2020-01-08"] := by
  decide

/-- A table with a duplicated date where one duplicate golden-crosses and
the other death-crosses. -/
def dupDateDf : List SignalRow :=
  [⟨"2020-01-01", 1, 2⟩, ⟨"2020-01-02", 5, 1⟩, ⟨"2020-01-02", 0, 1⟩]

/-- C10 counterexample: with a duplicated date the two detectors can both
flag the same date, so the lists are not disjoint for every table. -/
theorem c10_not_disjoint_with_dup_dates :
    "2020-01-02" ∈ detect_golden_crossover dupDateDf
    ∧ "2020-01-02" ∈ detect_death_cross dupDateDf := by
  decide

/-- C10 amended: when the table's dates are pairwise distinct, no date is
flagged by both detectors, since `SMA50[i] > SMA200[i]` and
`SMA50[i] < SMA200[i]` cannot hold at the same row. -/
theorem golden_death_disjoint (df : List SignalRow)
    (hd : (df.map SignalRow.date).Nodup) :
    ∀ d, d ∈ detect_golden_crossover df → d ∉ detect_death_cross df := by
  intro d hg hdth
  rw [detect_golden_eq] at hg
  rw [detect_death_eq] at hdth
  unfold crossDatesAt at hg hdth
  obtain ⟨i, hif, hdi⟩ := List.mem_map.mp hg
  obtain ⟨j, hjf, hdj⟩ := List.mem_map.mp hdth
  obtain ⟨hir, hci⟩ := List.mem_filter.mp hif
  obtain ⟨hjr, hcj⟩ := List.mem_filter.mp hjf
  have hi : i < (sortSignals df).length := List.mem_range.mp hir
  have hj : j < (sortSignals df).length := List.mem_range.mp hjr
  have hsd : ((sortSignals df).map SignalRow.date).Nodup :=
    (((sortSignals_perm df).map SignalRow.date).nodup_iff).mpr hd
  have hij : i = j := by
    have hmi : i < ((sortSignals df).map SignalRow.date).length := by
      simpa using hi
    have hmj : j < ((sortSignals df).map SignalRow.date).length := by
      simpa using hj
    have hdate : ((sortSignals df).map SignalRow.date).get ⟨i, hmi⟩
        = ((sortSignals df).map SignalRow.date).get ⟨j, hmj⟩ := by
      simp only [List.get_eq_getElem, List.getElem_map]
      rw [← List.getD_eq_getElem _ dfltSig hi, ← List.getD_eq_getElem _ dfltSig hj]
      rw [hdi, hdj]
    have hfin := (List.Nodup.get_inj_iff hsd).mp hdate
    exact congrArg Fin.val hfin
  subst hij
  simp only [goldenCondAt, Bool.and_eq_true, decide_eq_true_eq] at hci
  simp only [deathCondAt, Bool.and_eq_true, decide_eq_true_eq] at hcj
  exact lt_asymm hci.2 hcj.2

/-! ## Data-quality classification: C9 -/

theorem filter_all_of_length_eq {α : Type} (p : α → Bool) (l : List α)
    (h : (l.filter p).length = l.length) : ∀ a ∈ l, p a = true := by
  have hs : l.filter p = l := (List.filter_sublist l).eq_of_length h
  exact List.filter_eq_self.mp hs

/-- C9: `assess_data_quality` returns "missing" on an empty table;
otherwise it classifies the latest row as "complete" iff all seven core
fields are present and non-null, "missing" iff none is, "partial" iff
some but not all are; and a latest row lacking exactly
`enterprise_value` classifies as "partial". -/
theorem assess_data_quality_classification :
    assess_data_quality [] = "missing"
    ∧ (∀ df : List (List (String × Option Rat)), df ≠ [] →
        ((assess_data_quality df = "complete" ↔
            ∀ f ∈ coreFields, fieldAvailable (df.getLastD []) f = true)
        ∧ (assess_data_quality df = "missing" ↔
            ∀ f ∈ coreFields, fieldAvailable (df.getLastD []) f = false)
        ∧ (assess_data_quality df = "partial" ↔
            ((∃ f ∈ coreFields, fieldAvailable (df.getLastD []) f = true)
             ∧ ∃ f ∈ coreFields, fieldAvailable (df.getLastD []) f = false))))
    ∧ (∀ df : List (List (String × Option Rat)), df ≠ [] →
        fieldAvailable (df.getLastD []) "enterprise_value" = false →
        (∀ f ∈ coreFields, f ≠ "enterprise_value" →
          fieldAvailable (df.getLastD []) f = true) →
        assess_data_quality df = "partial") := by
  have hmain : ∀ df : List (List (String × Option Rat)), df ≠ [] →
      ((assess_data_quality df = "complete" ↔
          ∀ f ∈ coreFields, fieldAvailable (df.getLastD []) f = true)
      ∧ (assess_data_quality df = "missing" ↔
          ∀ f ∈ coreFields, fieldAvailable (df.getLastD []) f = false)
      ∧ (assess_data_quality df = "partial" ↔
          ((∃ f ∈ coreFields, fieldAvailable (df.getLastD []) f = true)
           ∧ ∃ f ∈ coreFields, fieldAvailable (df.getLastD []) f = false))) := by
    intro df hdf
    have hne : df.isEmpty = false := by
      cases df with
      | nil => exact absurd rfl hdf
      | cons a t => rfl
    have hval : assess_data_quality df =
        (if (coreFields.filter
              (fun f => fieldAvailable (df.getLastD []) f)).length
            = coreFields.length then "complete"
         else if 0 < (coreFields.filter
              (fun f => fieldAvailable (df.getLastD []) f)).length then "partial"
         else "missing") := by
      unfold assess_data_quality
      rw [hne]
      rfl
    have hall : (coreFields.filter
          (fun f => fieldAvailable (df.getLastD []) f)).length
          = coreFields.length
        ↔ ∀ f ∈ coreFields, fieldAvailable (df.getLastD []) f = true := by
      constructor
      · exact filter_all_of_length_eq _ _
      · intro h
        rw [List.filter_eq_self.mpr h]
    have hnonelem : (coreFields.filter
          (fun f => fieldAvailable (df.getLastD []) f)).length = 0
        ↔ ∀ f ∈ coreFields, fieldAvailable (df.getLastD []) f = false := by
      rw [List.length_eq_zero, List.filter_eq_nil_iff]
      constructor
      · intro h f hf
        exact Bool.eq_false_iff.mpr (h f hf)
      · intro h f hf
        rw [h f hf]
        exact Bool.false_ne_true
    have hpos : 0 < (coreFields.filter
          (fun f => fieldAvailable (df.getLastD []) f)).length
        ↔ ∃ f ∈ coreFields, fieldAvailable (df.getLastD []) f = true := by
      rw [List.length_pos, Ne, List.filter_eq_nil_iff]
      constructor
      · intro h
        by_contra hc
        push_neg at hc
        exact h (fun f hf => hc f hf)
      · rintro ⟨f, hf, hp⟩ h
        exact absurd hp (h f hf)
    have hsome_false : (coreFields.filter
          (fun f => fieldAvailable (df.getLastD []) f)).length
          ≠ coreFields.length
        ↔ ∃ f ∈ coreFields, fieldAvailable (df.getLastD []) f = false := by
      rw [Ne, hall]
      constructor
      · intro h
        by_contra hc
        push_neg at hc
        exact h (fun f hf => Bool.ne_false_iff.mp (hc f hf))
      · rintro ⟨f, hf, hp⟩ h
        rw [h f hf] at hp
        cases hp
    rcases eq_or_ne (coreFields.filter
        (fun f => fieldAvailable (df.getLastD []) f)).length
        coreFields.length with he | he
    · rw [hval, if_pos he]
      refine ⟨⟨fun _ => hall.mp he, fun _ => rfl⟩, ?_, ?_⟩
      · constructor
        · intro h; exact absurd h (by decide)
        · intro h
          have h1 := hall.mp he "SMA50" (by decide)
          have h2 := h "SMA50" (by decide)
          rw [h1] at h2; cases h2
      · constructor
        · intro h; exact absurd h (by decide)
        · rintro ⟨-, f, hf, hp⟩
          have := hall.mp he f hf
          rw [this] at hp; cases hp
    · rcases Nat.eq_zero_or_pos (coreFields.filter
          (fun f => fieldAvailable (df.getLastD []) f)).length with h0 | hp
      · rw [hval, if_neg he, if_neg (by rw [h0]; exact lt_irrefl 0)]
        refine ⟨?_, ⟨fun _ => hnonelem.mp h0, fun _ => rfl⟩, ?_⟩
        · constructor
          · intro h; exact absurd h (by decide)
          · intro h
            exact absurd (hall.mpr h) he
        · constructor
          · intro h; exact absurd h (by decide)
          · rintro ⟨⟨f, hf, hpt⟩, -⟩
            have := hnonelem.mp h0 f hf
            rw [this] at hpt; cases hpt
      · rw [hval, if_neg he, if_pos hp]
        refine ⟨?_, ?_, ?_⟩
        · constructor
          · intro h; exact absurd h (by decide)
          · intro h
            exact absurd (hall.mpr h) he
        · constructor
          · intro h; exact absurd h (by decide)
          · intro h
            have := hnonelem.mpr h
            rw [this] at hp
            exact absurd hp (lt_irrefl 0)
        · exact ⟨fun _ => ⟨hpos.mp hp, hsome_false.mp he⟩, fun _ => rfl⟩
  refine ⟨rfl, hmain, ?_⟩
  intro df hdf hev hrest
  have h := (hmain df hdf).2.2
  apply h.mpr
  constructor
  · exact ⟨"SMA50", by decide, hrest "SMA50" (by decide) (by decide)⟩
  · exact ⟨"enterprise_value", by decide, hev⟩

/-! ## Price-series normalization: C6 -/

/-- C6 amended: a raw row that fails coercion is dropped individually (it
never aborts the rest, which is processed in full), and every row that
passes coercion lands in the output — but the `high >= low` constraint is
not part of the validation, so such bars are not dropped. -/
theorem normalize_drops_bad_rows_individually (xs ys : List RawBar)
    (bad : RawBar) (hbad : validateRow bad = none) :
    normalizeBars (xs ++ bad :: ys) = normalizeBars xs ++ normalizeBars ys
    ∧ ∀ r ∈ xs ++ bad :: ys, ∀ b, validateRow r = some b →
        b ∈ normalizeBars (xs ++ bad :: ys) := by
  unfold normalizeBars
  constructor
  · rw [List.filterMap_append, List.filterMap_cons, hbad]
  · intro r hr b hb
    rw [List.mem_filterMap]
    exact ⟨r, hr, hb⟩

/-- A raw feed with a coercion failure and a bar whose high is below its
low. -/
def c6rows : List RawBar :=
  [⟨"2020-01-01", some 1, some 2, some 1, some 1, some 10⟩,
   ⟨"2020-01-02", some 1, some 1, some 2, some 1, some 10⟩,
   ⟨"not-a-date", some 1, some 2, some 1, some 1, some 10⟩]

/-- C6 counterexample: the validation drops the uncoercible row but keeps
the `high < low` bar — such a bar does appear in the normalized output,
contradicting the claim that it never does. -/
theorem c6_high_lt_low_bar_survives :
    normalizeBars c6rows
      = [⟨"2020-01-01", 1, 2, 1, 1, 10⟩, ⟨"2020-01-02", 1, 1, 2, 1, 10⟩]
    ∧ (⟨"2020-01-02", 1, 1, 2, 1, 10⟩ : Bar) ∈ normalizeBars c6rows
    ∧ (Bar.hi ⟨"2020-01-02", 1, 1, 2, 1, 10⟩
        < Bar.lo ⟨"2020-01-02", 1, 1, 2, 1, 10⟩) := by
  decide

/-- C6 witness: the amended theorem applied to the concrete feed, whose
last row is uncoercible. -/
theorem normalize_drops_bad_rows_witness :
    normalizeBars c6rows = normalizeBars (c6rows.take 2) ++ normalizeBars [] :=
  (normalize_drops_bad_rows_individually (c6rows.take 2) []
    ⟨"not-a-date", some 1, some 2, some 1, some 1, some 10⟩ (by decide)).1

/-! ## Fundamentals-merge failure handling: C7 -/

/-- C7 amended: if any report date fails to parse, the entire fundamentals
merge is skipped — `process_data` logs and returns exactly the table it
would have produced with no fundamentals supplied (so the well-formed
report dates are not merged either, and no exception escapes). -/
theorem merge_skipped_on_bad_report_date (raw : RawInput) (t : FundTable)
    (hf : raw.fundamentals = some t)
    (hbad : ∃ r ∈ t.frows, isIsoDate r.1 = false) :
    process_data raw = process_data ⟨raw.prices, none, raw.info⟩ := by
  unfold process_data
  dsimp only
  have hm : mergeFund (addIndicators (sortBars raw.prices)) raw.fundamentals
      = ([], addIndicators (sortBars raw.prices)) := by
    rw [hf]
    simp only [mergeFund]
    by_cases he : (t.frows.isEmpty || t.cols.isEmpty) = true
    · rw [if_pos he]
    · rw [if_neg he]
      have hp : parseFundDates t = none := by
        unfold parseFundDates
        rw [if_neg ?hne]
        case hne =>
          obtain ⟨r, hr, hbadr⟩ := hbad
          intro hall
          rw [List.all_eq_true] at hall
          have := hall r hr
          rw [hbadr] at this
          cases this
      rw [hp]
  rw [hm]
  simp only [mergeFund]

/-- A fundamentals frame with one unparseable and one well-formed report
date. -/
def c7fund : FundTable :=
  ⟨["TotalAssets"], [("garbage", [some 5]), ("2020-01-02", [some 7])]⟩

def c7raw : RawInput :=
  ⟨[⟨"2020-01-02", 1, 1, 1, 5, 10⟩], some c7fund, emptyInfo⟩

/-- C7 counterexample: with one bad report date the well-formed
2020-01-02 report is NOT merged — the output has no fundamentals columns
at all, contradicting the claim that only the bad date is dropped while
the rest are still merged. -/
theorem c7_good_report_not_merged :
    (process_data c7raw).fundCols = []
    ∧ ((process_data c7raw).rows.getD 0 dfltRow).fvals = [] := by
  decide

/-- C7 witness: the amended theorem applied to the concrete input with a
bad report date. -/
theorem merge_skipped_witness :
    process_data c7raw = process_data ⟨c7raw.prices, none, c7raw.info⟩ :=
  merge_skipped_on_bad_report_date c7raw c7fund rfl
    ⟨("garbage", [some 5]), by decide, by decide⟩

/-! ## The two duplicated process_data implementations: C5 -/

/-- C5 amended: the two `process_data` definitions agree exactly on the
inputs where their structural differences are inert — no fundamentals
frame, and the shared book-value resolution (truthy `bookValue`, or an
info mapping that cannot feed the first version's derivation).  On other
inputs they differ (see the counterexample); in Python the second
definition shadows the first. -/
theorem process_data_versions_agree (raw : RawInput)
    (hf : raw.fundamentals = none)
    (hinfo : truthy raw.info.bookValue = true
      ∨ raw.info.totalAssets = none ∨ raw.info.sharesOutstanding = none) :
    process_data_v1 raw = process_data raw := by
  unfold process_data process_data_v1
  dsimp only
  rw [hf]
  simp only [mergeFund]
  have hbv : (resolveBvpsV1 raw.info).map some
      = resolveBvps raw.info [] (addIndicators (sortBars raw.prices)) := by
    unfold resolveBvpsV1 resolveBvps
    have hder : resolveBvps.resolveBvpsDerived []
        (addIndicators (sortBars raw.prices)) = none := by
      unfold resolveBvps.resolveBvpsDerived
      rfl
    cases hb : raw.info.bookValue with
    | some v =>
      by_cases hv : v = 0
      · subst hv
        simp only [if_neg (by simp : ¬ (0 : Rat) ≠ 0), hder]
        rcases hinfo with h | h | h
        · rw [hb] at h
          simp [truthy] at h
        · simp only [h]
          rfl
        · cases ht : raw.info.totalAssets with
          | none => rfl
          | some a =>
            by_cases ha : a = 0
            · simp only [if_neg (by simp [ha] : ¬ a ≠ 0)]
              rfl
            · simp only [if_pos ha, h]
              rfl
      · simp only [if_pos hv]
        rfl
    | none =>
      simp only [hder]
      rcases hinfo with h | h | h
      · rw [hb] at h
        simp [truthy] at h
      · simp only [h]
        rfl
      · cases ht : raw.info.totalAssets with
        | none => rfl
        | some a =>
          by_cases ha : a = 0
          · simp only [if_neg (by simp [ha] : ¬ a ≠ 0)]
            rfl
          · simp only [if_pos ha, h]
            rfl
  rw [hbv]

/-- Prices plus an info mapping whose equity data feeds only the first
definition's derivation path. -/
def c5raw : RawInput :=
  ⟨[⟨"2020-01-01", 1, 1, 1, 5, 10⟩], none, ⟨none, some 100, some 10, none⟩⟩

/-- C5 counterexample: on `c5raw` the first definition derives a book
value from `info` (10 = 100/10) while the second, which only derives from
merged fundamentals columns, leaves it null — the two definitions do not
return the same table on every input. -/
theorem c5_versions_differ :
    ((process_data_v1 c5raw).rows.getD 0 dfltRow).bvps = some 10
    ∧ ((process_data c5raw).rows.getD 0 dfltRow).bvps = none
    ∧ process_data_v1 c5raw ≠ process_data c5raw := by
  have h2 : ((process_data c5raw).rows.getD 0 dfltRow).bvps = none := by decide
  have h1 : ((process_data_v1 c5raw).rows.getD 0 dfltRow).bvps = some 10 := by
    unfold process_data_v1 c5raw
    dsimp only
    unfold resolveBvpsV1
    norm_num
    unfold applyRatios addIndicators
    norm_num [sortBars, List.insertionSort]
  refine ⟨h1, h2, ?_⟩
  intro h
  rw [congrArg (fun tb => (tb.rows.getD 0 dfltRow).bvps) h, h2] at h1
  cases h1

/-- C5 witness: the amended theorem applied to an input with no
fundamentals and a truthy book value. -/
theorem process_data_versions_agree_witness :
    process_data_v1 ⟨[⟨"2020-01-01", 1, 1, 1, 5, 10⟩], none,
        ⟨some 7, none, none, none⟩⟩
      = process_data ⟨[⟨"2020-01-01", 1, 1, 1, 5, 10⟩], none,
        ⟨some 7, none, none, none⟩⟩ :=
  process_data_versions_agree _ rfl (Or.inl (by decide))

/-! ## Ratio-column behaviour: C4 -/

/-- The per-row effect of the ratio block, as a function of the resolved
book value. -/
def ratioFn (bv : Option (Option Rat)) (inf : Info) (r : MetricsRow) :
    MetricsRow :=
  let evv : Option Rat :=
    match inf.enterpriseValue with
    | some v => if v ≠ 0 then some v else none
    | none => none
  match bv with
  | some (some v) =>
    if v ≠ 0 ∧ 0 < v then { r with bvps := some v, pb := some (r.close / v), ev := evv }
    else { r with bvps := none, pb := none, ev := evv }
  | _ => { r with bvps := none, pb := none, ev := evv }

theorem applyRatios_eq_map (bv : Option (Option Rat)) (inf : Info)
    (rows : List MetricsRow) :
    applyRatios bv inf rows = rows.map (ratioFn bv inf) := by
  unfold applyRatios ratioFn
  match bv with
  | none => rfl
  | some none => rfl
  | some (some v) =>
    by_cases hc : v ≠ 0 ∧ 0 < v
    · simp only [if_pos hc]
    · simp only [if_neg hc]

theorem ratioFn_fvals (bv : Option (Option Rat)) (inf : Info)
    (r : MetricsRow) : (ratioFn bv inf r).fvals = r.fvals := by
  unfold ratioFn
  match bv with
  | none => rfl
  | some none => rfl
  | some (some v) => by_cases hc : v ≠ 0 ∧ 0 < v <;> simp [hc]

theorem ratioFn_close (bv : Option (Option Rat)) (inf : Info)
    (r : MetricsRow) : (ratioFn bv inf r).close = r.close := by
  unfold ratioFn
  match bv with
  | none => rfl
  | some none => rfl
  | some (some v) => by_cases hc : v ≠ 0 ∧ 0 < v <;> simp [hc]

theorem getD_map_row (g : MetricsRow → MetricsRow) (rows : List MetricsRow)
    {i : Nat} (hi : i < rows.length) :
    (rows.map g).getD i dfltRow = g (rows.getD i dfltRow) := by
  rw [List.getD_eq_getElem _ _ (by simpa using hi), List.getElem_map,
    List.getD_eq_getElem _ _ hi]

theorem lastFfill_map_ratio (cols : List String) (bv : Option (Option Rat))
    (inf : Info) (rows : List MetricsRow) (c : String) :
    lastFfill cols (rows.map (ratioFn bv inf)) c = lastFfill cols rows c := by
  unfold lastFfill
  rw [← List.map_reverse, List.findSome?_map]
  congr 1
  funext r
  simp only [Function.comp_apply, ratioFn_fvals]

/-- The merge stage of `process_data` on a given raw input. -/
def mergedOf (raw : RawInput) : List String × List MetricsRow :=
  mergeFund (addIndicators (sortBars raw.prices)) raw.fundamentals

/-- The resolved book value used by the ratio block. -/
def resolvedBv (raw : RawInput) : Option (Option Rat) :=
  resolveBvps raw.info (mergedOf raw).1 (mergedOf raw).2

theorem process_data_eq (raw : RawInput) : process_data raw =
    { fundCols := (mergedOf raw).1,
      rows := ((mergedOf raw).2).map (ratioFn (resolvedBv raw) raw.info) } := by
  unfold process_data mergedOf resolvedBv
  dsimp only
  rw [applyRatios_eq_map]
  rfl

/-- C4 amended: the `bvps` column carries the info `bookValue` verbatim
only when that field is present, truthy AND positive; a truthy negative
book value yields null columns (not the verbatim value).  When `bookValue`
is absent or zero, the value is derived as last(TotalAssets)/last(shares)
from the merged columns when those columns are present with a non-null
entry and positive last share count (and a positive quotient); in every
remaining case both `bvps` and `pb_ratio` are null, and whenever `bvps`
is non-null it is positive with `pb[i] = close[i] / bvps`. -/
theorem bvps_precedence_and_pb (raw : RawInput) :
    (∀ v, raw.info.bookValue = some v → 0 < v →
      ∀ i, i < (process_data raw).rows.length →
        ((process_data raw).rows.getD i dfltRow).bvps = some v
        ∧ ((process_data raw).rows.getD i dfltRow).pb
            = some (((process_data raw).rows.getD i dfltRow).close / v))
    ∧ (∀ v, raw.info.bookValue = some v → v ≠ 0 → ¬ 0 < v →
        ∀ i, i < (process_data raw).rows.length →
          ((process_data raw).rows.getD i dfltRow).bvps = none
          ∧ ((process_data raw).rows.getD i dfltRow).pb = none)
    ∧ ((raw.info.bookValue = none ∨ raw.info.bookValue = some 0) →
        "TotalAssets" ∈ (process_data raw).fundCols →
        "OrdinarySharesNumber" ∈ (process_data raw).fundCols →
        (process_data raw).rows.any (fun r =>
          (cellAt (process_data raw).fundCols r.fvals
            "OrdinarySharesNumber").isSome) = true →
        ∀ a s, lastFfill (process_data raw).fundCols (process_data raw).rows
              "TotalAssets" = some a →
          lastFfill (process_data raw).fundCols (process_data raw).rows
              "OrdinarySharesNumber" = some s →
          0 < s → 0 < a / s →
          ∀ i, i < (process_data raw).rows.length →
            ((process_data raw).rows.getD i dfltRow).bvps = some (a / s)
            ∧ ((process_data raw).rows.getD i dfltRow).pb
                = some (((process_data raw).rows.getD i dfltRow).close / (a / s)))
    ∧ (∀ i, i < (process_data raw).rows.length →
        (((process_data raw).rows.getD i dfltRow).bvps = none
          ∧ ((process_data raw).rows.getD i dfltRow).pb = none)
        ∨ (∃ v, 0 < v
            ∧ ((process_data raw).rows.getD i dfltRow).bvps = some v
            ∧ ((process_data raw).rows.getD i dfltRow).pb
                = some (((process_data raw).rows.getD i dfltRow).close / v))) := by
  have hpd := process_data_eq raw
  have hlen : (process_data raw).rows.length = (mergedOf raw).2.length := by
    rw [hpd]
    simp
  have hrow : ∀ i, i < (mergedOf raw).2.length →
      (process_data raw).rows.getD i dfltRow
        = ratioFn (resolvedBv raw) raw.info ((mergedOf raw).2.getD i dfltRow) := by
    intro i hi
    rw [hpd]
    exact getD_map_row _ _ hi
  refine ⟨?caseA, ?caseB, ?caseC, ?caseD⟩
  case caseA =>
    intro v hbv hvpos i hi
    rw [hlen] at hi
    have hres : resolvedBv raw = some (some v) := by
      unfold resolvedBv resolveBvps
      rw [hbv]
      dsimp only
      rw [if_pos (ne_of_gt hvpos)]
    rw [hrow i hi, hres]
    constructor
    · simp [ratioFn, ne_of_gt hvpos, hvpos]
    · simp [ratioFn, ne_of_gt hvpos, hvpos]
  case caseB =>
    intro v hbv hv0 hneg i hi
    rw [hlen] at hi
    have hres : resolvedBv raw = some (some v) := by
      unfold resolvedBv resolveBvps
      rw [hbv]
      dsimp only
      rw [if_pos hv0]
    rw [hrow i hi, hres]
    constructor
    · simp [ratioFn, hneg]
    · simp [ratioFn, hneg]
  case caseC =>
    intro hbv0 hta hosn hany a s hla hls hspos hquot i hi
    rw [hlen] at hi
    rw [hpd] at hta hosn hany hla hls
    dsimp only at hta hosn hany hla hls
    rw [List.any_map] at hany
    simp only [Function.comp_def, ratioFn_fvals] at hany
    rw [lastFfill_map_ratio] at hla hls
    have hder : resolveBvps.resolveBvpsDerived (mergedOf raw).1 (mergedOf raw).2
        = some (some (a / s)) := by
      have hcond : ((mergedOf raw).1.contains "TotalAssets"
          && (mergedOf raw).1.contains "OrdinarySharesNumber"
          && (mergedOf raw).2.any (fun r =>
            (cellAt (mergedOf raw).1 r.fvals "OrdinarySharesNumber").isSome))
          = true := by
        rw [Bool.and_eq_true, Bool.and_eq_true]
        refine ⟨⟨?_, ?_⟩, hany⟩
        · exact List.elem_eq_true_of_mem hta
        · exact List.elem_eq_true_of_mem hosn
      unfold resolveBvps.resolveBvpsDerived
      rw [hcond]
      simp only [if_true]
      rw [hls]
      dsimp only
      rw [if_pos ⟨ne_of_gt hspos, hspos⟩, hla]
    have hres : resolvedBv raw = some (some (a / s)) := by
      unfold resolvedBv resolveBvps
      rcases hbv0 with h | h
      · rw [h]
        exact hder
      · rw [h]
        dsimp only
        rw [if_neg (by simp)]
        exact hder
    rw [hrow i hi, hres]
    constructor
    · simp [ratioFn, ne_of_gt hquot, hquot]
    · simp [ratioFn, ne_of_gt hquot, hquot]
  case caseD =>
    intro i hi
    rw [hlen] at hi
    rw [hrow i hi]
    cases hb : resolvedBv raw with
    | none => exact Or.inl (by simp [ratioFn])
    | some o =>
      cases o with
      | none => exact Or.inl (by simp [ratioFn])
      | some v =>
        by_cases hc : v ≠ 0 ∧ 0 < v
        · exact Or.inr ⟨v, hc.2, by simp [ratioFn, hc], by simp [ratioFn, hc]⟩
        · exact Or.inl (by simp [ratioFn, hc])

/-- Prices with a truthy but negative direct book value. -/
def c4raw : RawInput :=
  ⟨[⟨"2020-01-01", 1, 1, 1, 5, 10⟩], none, ⟨some (-5), none, none, none⟩⟩

/-- C4 counterexample: `bookValue = -5` is present and truthy, yet the
output `bvps` column is null, not the verbatim value — the claim's
"taken verbatim whenever present and truthy" fails for non-positive
values. -/
theorem c4_negative_bookValue_not_verbatim :
    truthy c4raw.info.bookValue = true
    ∧ ((process_data c4raw).rows.getD 0 dfltRow).bvps = none
    ∧ ((process_data c4raw).rows.getD 0 dfltRow).bvps ≠ some (-5) := by
  decide

def c4wraw : RawInput :=
  ⟨[⟨"2020-01-01", 1, 1, 1, 5, 10⟩], none, ⟨some 7, none, none, none⟩⟩

/-- C4 witness: the amended theorem at a positive direct book value. -/
theorem bvps_precedence_witness :
    ((process_data c4wraw).rows.getD 0 dfltRow).bvps = some 7
    ∧ ((process_data c4wraw).rows.getD 0 dfltRow).pb
        = some (((process_data c4wraw).rows.getD 0 dfltRow).close / 7) :=
  (bvps_precedence_and_pb c4wraw).1 7 rfl (by norm_num) 0 (by decide)

/-! ## Merge/forward-fill structure lemmas (used for C1 and C3) -/

/-- The single-row effect of the left join when report dates are unique. -/
def joinRow (t : FundTable) (r : MetricsRow) : MetricsRow :=
  match t.frows.filter (fun fr => fr.1 = r.date) with
  | [] => { r with fvals := t.cols.map (fun _ => none) }
  | fr :: _ => { r with fvals := t.cols.map (cellAt t.cols fr.2) }

theorem filter_key_singleton (frows : List (String × List (Option Rat)))
    (hnodup : (frows.map Prod.fst).Nodup) (d : String) :
    frows.filter (fun fr => fr.1 = d) = []
    ∨ ∃ fr, frows.filter (fun fr => fr.1 = d) = [fr] := by
  induction frows with
  | nil => exact Or.inl rfl
  | cons a rest ih =>
    rw [List.map_cons, List.nodup_cons] at hnodup
    by_cases ha : a.1 = d
    · right
      refine ⟨a, ?_⟩
      rw [List.filter_cons_of_pos (by simpa using ha)]
      have hrest : rest.filter (fun fr => fr.1 = d) = [] := by
        rw [List.filter_eq_nil_iff]
        intro fr hfr
        simp only [decide_eq_true_eq]
        intro hd
        exact hnodup.1 (by
          rw [← ha] at hd
          exact hd ▸ List.mem_map_of_mem Prod.fst hfr)
      rw [hrest]
    · rw [List.filter_cons_of_neg (by simpa using ha)]
      exact ih hnodup.2

theorem flatMap_singleton {α β : Type} (f : α → List β) (g : α → β)
    (l : List α) (h : ∀ a ∈ l, f a = [g a]) : l.flatMap f = l.map g := by
  induction l with
  | nil => rfl
  | cons a t ih =>
    rw [List.flatMap_cons, h a (List.mem_cons_self a t), List.map_cons,
      ih (fun x hx => h x (List.mem_cons_of_mem a hx))]
    rfl

theorem leftJoin_eq_map (rows : List MetricsRow) (t : FundTable)
    (hnodup : (t.frows.map Prod.fst).Nodup) :
    leftJoin rows t = rows.map (joinRow t) := by
  unfold leftJoin
  apply flatMap_singleton
  intro r _
  rcases filter_key_singleton t.frows hnodup r.date with h | ⟨fr, h⟩
  · rw [h]
    unfold joinRow
    rw [h]
  · rw [h]
    unfold joinRow
    rw [h]
    rfl

theorem joinRow_base (t : FundTable) (r : MetricsRow) :
    (joinRow t r).date = r.date ∧ (joinRow t r).close = r.close
    ∧ (joinRow t r).sma50 = r.sma50 ∧ (joinRow t r).sma200 = r.sma200
    ∧ (joinRow t r).high52w = r.high52w ∧ (joinRow t r).pct = r.pct := by
  unfold joinRow
  cases t.frows.filter (fun fr => fr.1 = r.date) with
  | nil => exact ⟨rfl, rfl, rfl, rfl, rfl, rfl⟩
  | cons fr rest => exact ⟨rfl, rfl, rfl, rfl, rfl, rfl⟩

theorem ffillRows_length : ∀ (rows : List MetricsRow) accP accF,
    (ffillRows accP accF rows).length = rows.length
  | [], _, _ => rfl
  | r :: rest, accP, accF => by
    unfold ffillRows
    rw [List.length_cons, List.length_cons, ffillRows_length]

theorem ffillRows_getD_base : ∀ (rows : List MetricsRow) accP accF i,
    i < rows.length →
    (((ffillRows accP accF rows).getD i dfltRow).date
        = (rows.getD i dfltRow).date
    ∧ ((ffillRows accP accF rows).getD i dfltRow).close
        = (rows.getD i dfltRow).close
    ∧ ((ffillRows accP accF rows).getD i dfltRow).sma50
        = (rows.getD i dfltRow).sma50
    ∧ ((ffillRows accP accF rows).getD i dfltRow).sma200
        = (rows.getD i dfltRow).sma200
    ∧ ((ffillRows accP accF rows).getD i dfltRow).high52w
        = (rows.getD i dfltRow).high52w)
    ∧ (∀ v, (rows.getD i dfltRow).pct = some v →
        ((ffillRows accP accF rows).getD i dfltRow).pct = some v)
  | [], _, _, i, hi => absurd hi (by simp)
  | r :: rest, accP, accF, 0, _ => by
    unfold ffillRows
    refine ⟨⟨rfl, rfl, rfl, rfl, rfl⟩, ?_⟩
    intro v hv
    simp only [List.getD_cons_zero] at hv ⊢
    rw [hv]
  | r :: rest, accP, accF, i + 1, hi => by
    unfold ffillRows
    simp only [List.getD_cons_succ]
    exact ffillRows_getD_base rest _ _ i (by simpa using hi)

/-- Dates are carried through forward-fill unchanged. -/
theorem ffillRows_map_date : ∀ (rows : List MetricsRow) accP accF,
    (ffillRows accP accF rows).map MetricsRow.date
      = rows.map MetricsRow.date
  | [], _, _ => rfl
  | r :: rest, accP, accF => by
    unfold ffillRows
    rw [List.map_cons, List.map_cons, ffillRows_map_date]

theorem keepRecognized_keys (t : FundTable) :
    (keepRecognized t).frows.map Prod.fst = t.frows.map Prod.fst := by
  unfold keepRecognized
  by_cases h : (["TotalAssets", "TotalLiab", "OrdinarySharesNumber"].filter
      (fun c => t.cols.contains c)).isEmpty
  · rw [if_pos h]
  · rw [if_neg h]
    simp

/-- Whatever the fundamentals input, the merge stage preserves the row
count, the dates, and the per-row indicator fields (the pct column is
preserved whenever it is non-null). -/
theorem mergeFund_base (ind : List MetricsRow) (f : Option FundTable)
    (hnodup : ∀ t, f = some t → (t.frows.map Prod.fst).Nodup) :
    (mergeFund ind f).2.length = ind.length
    ∧ (mergeFund ind f).2.map MetricsRow.date = ind.map MetricsRow.date
    ∧ ∀ i, i < ind.length →
        ((mergeFund ind f).2.getD i dfltRow).close = (ind.getD i dfltRow).close
        ∧ ((mergeFund ind f).2.getD i dfltRow).sma50 = (ind.getD i dfltRow).sma50
        ∧ ((mergeFund ind f).2.getD i dfltRow).sma200 = (ind.getD i dfltRow).sma200
        ∧ ((mergeFund ind f).2.getD i dfltRow).high52w = (ind.getD i dfltRow).high52w
        ∧ (∀ v, (ind.getD i dfltRow).pct = some v →
            ((mergeFund ind f).2.getD i dfltRow).pct = some v) := by
  cases f with
  | none =>
    refine ⟨rfl, rfl, ?_⟩
    intro i _
    exact ⟨rfl, rfl, rfl, rfl, fun v hv => hv⟩
  | some t =>
    have htriv : (mergeFund ind (some t)).2 = ind →
        (mergeFund ind (some t)).2.length = ind.length
        ∧ (mergeFund ind (some t)).2.map MetricsRow.date = ind.map MetricsRow.date
        ∧ ∀ i, i < ind.length →
            ((mergeFund ind (some t)).2.getD i dfltRow).close = (ind.getD i dfltRow).close
            ∧ ((mergeFund ind (some t)).2.getD i dfltRow).sma50 = (ind.getD i dfltRow).sma50
            ∧ ((mergeFund ind (some t)).2.getD i dfltRow).sma200 = (ind.getD i dfltRow).sma200
            ∧ ((mergeFund ind (some t)).2.getD i dfltRow).high52w = (ind.getD i dfltRow).high52w
            ∧ (∀ v, (ind.getD i dfltRow).pct = some v →
                ((mergeFund ind (some t)).2.getD i dfltRow).pct = some v) := by
      intro h
      rw [h]
      exact ⟨rfl, rfl, fun i _ => ⟨rfl, rfl, rfl, rfl, fun v hv => hv⟩⟩
    by_cases he : (t.frows.isEmpty || t.cols.isEmpty) = true
    · apply htriv
      simp only [mergeFund, if_pos he]
    · by_cases hall : (t.frows.all (fun r => isIsoDate r.1)) = true
      · have hm : (mergeFund ind (some t)).2
            = ffillRows none ((keepRecognized t).cols.map (fun _ => none))
                (ind.map (joinRow (keepRecognized t))) := by
          simp only [mergeFund, if_neg he]
          rw [parseFundDates, if_pos hall]
          dsimp only
          rw [leftJoin_eq_map]
          rw [keepRecognized_keys]
          exact hnodup t rfl
        rw [hm]
        have hjlen : (ind.map (joinRow (keepRecognized t))).length = ind.length := by
          simp
        refine ⟨?_, ?_, ?_⟩
        · rw [ffillRows_length, hjlen]
        · rw [ffillRows_map_date, List.map_map]
          apply List.map_congr_left
          intro r _
          exact (joinRow_base _ r).1
        · intro i hi
          have hib : i < (ind.map (joinRow (keepRecognized t))).length := by
            rw [hjlen]; exact hi
          have hbase := ffillRows_getD_base (ind.map (joinRow (keepRecognized t)))
            none ((keepRecognized t).cols.map (fun _ => none)) i hib
          have hjr : (ind.map (joinRow (keepRecognized t))).getD i dfltRow
              = joinRow (keepRecognized t) (ind.getD i dfltRow) :=
            getD_map_row _ _ hi
          have hjb := joinRow_base (keepRecognized t) (ind.getD i dfltRow)
          refine ⟨?_, ?_, ?_, ?_, ?_⟩
          · rw [hbase.1.2.1, hjr, hjb.2.1]
          · rw [hbase.1.2.2.1, hjr, hjb.2.2.1]
          · rw [hbase.1.2.2.2.1, hjr, hjb.2.2.2.1]
          · rw [hbase.1.2.2.2.2, hjr, hjb.2.2.2.2.1]
          · intro v hv
            apply hbase.2
            rw [hjr, hjb.2.2.2.2.2, hv]
      · apply htriv
        simp only [mergeFund, if_neg he]
        rw [parseFundDates, if_neg hall]

/-! ## Indicator-window characterization (C1) -/

theorem addIndicators_length (s : List Bar) :
    (addIndicators s).length = s.length := by
  simp [addIndicators]

theorem addIndicators_getD (s : List Bar) {i : Nat} (hi : i < s.length) :
    (addIndicators s).getD i dfltRow =
      { date := (s.getD i dfltBar).date, op := (s.getD i dfltBar).op,
        hi := (s.getD i dfltBar).hi, lo := (s.getD i dfltBar).lo,
        close := (s.getD i dfltBar).close,
        volume := (s.getD i dfltBar).volume,
        sma50 := smaAt 50 (s.map Bar.close) i,
        sma200 := smaAt 200 (s.map Bar.close) i,
        high52w := rollMaxAt 252 (s.map Bar.close) i,
        pct := pctFromHigh (s.getD i dfltBar).close
          (rollMaxAt 252 (s.map Bar.close) i),
        fvals := [], bvps := none, pb := none, ev := none } := by
  unfold addIndicators
  dsimp only
  rw [List.getD_eq_getElem _ _ (by simpa using hi), List.getElem_map,
    List.getElem_range]

theorem addIndicators_map_date (s : List Bar) :
    (addIndicators s).map MetricsRow.date = s.map Bar.date := by
  apply List.ext_getElem
  · simp [addIndicators]
  · intro n h1 h2
    have hn : n < s.length := by simpa using h2
    have ha : n < (addIndicators s).length := by
      rw [addIndicators_length]; exact hn
    simp only [List.getElem_map]
    rw [← List.getD_eq_getElem _ dfltRow ha, addIndicators_getD s hn,
      ← List.getD_eq_getElem _ dfltBar hn]

/-- The window `close[a..b]` written with explicit indices. -/
def specSlice (xs : List Rat) (a b : Nat) : List Rat :=
  (List.range (b + 1 - a)).map (fun k => xs.getD (a + k) 0)

theorem rollingWindow_eq_specSlice (w : Nat) (xs : List Rat) (i : Nat)
    (hi : i < xs.length) :
    rollingWindow w xs i = specSlice xs (i + 1 - w) i := by
  apply List.ext_getElem
  · unfold rollingWindow specSlice
    simp only [List.length_drop, List.length_take, List.length_map,
      List.length_range]
    rw [Nat.min_eq_left (by omega : i + 1 ≤ xs.length)]
  · intro n h1 h2
    have hlen1 : n < (i + 1) - (i + 1 - w) := by
      unfold rollingWindow at h1
      simp only [List.length_drop, List.length_take] at h1
      rw [Nat.min_eq_left (by omega : i + 1 ≤ xs.length)] at h1
      exact h1
    unfold rollingWindow specSlice
    simp only [List.getElem_drop, List.getElem_take, List.getElem_map,
      List.getElem_range]
    rw [List.getD_eq_getElem _ _ (by omega)]

theorem rollingWindow_ne_nil (w : Nat) (hw : 0 < w) (xs : List Rat) (i : Nat)
    (hi : i < xs.length) : rollingWindow w xs i ≠ [] := by
  unfold rollingWindow
  intro h
  have hl := congrArg List.length h
  simp only [List.length_drop, List.length_take, List.length_nil] at hl
  rw [Nat.min_eq_left (by omega : i + 1 ≤ xs.length)] at hl
  omega

theorem rollingWindow_subset (w : Nat) (xs : List Rat) (i : Nat) :
    ∀ x ∈ rollingWindow w xs i, x ∈ xs := by
  intro x hx
  unfold rollingWindow at hx
  exact List.mem_of_mem_take (List.mem_of_mem_drop hx)

theorem foldl_max_pos (t : List Rat) : ∀ x : Rat, 0 < x →
    (∀ y ∈ t, 0 < y) → 0 < t.foldl max x := by
  induction t with
  | nil => intro x hx _; exact hx
  | cons y rest ih =>
    intro x hx hy
    rw [List.foldl_cons]
    exact ih (max x y) (lt_max_of_lt_left hx)
      (fun z hz => hy z (List.mem_cons_of_mem y hz))

theorem listMax_pos (l : List Rat) (hne : l ≠ []) (hpos : ∀ x ∈ l, 0 < x) :
    0 < listMax l := by
  cases l with
  | nil => exact absurd rfl hne
  | cons x t =>
    unfold listMax
    exact foldl_max_pos t x (hpos x (List.mem_cons_self x t))
      (fun y hy => hpos y (List.mem_cons_of_mem x hy))

theorem ratioFn_keeps (bv : Option (Option Rat)) (inf : Info)
    (r : MetricsRow) :
    (ratioFn bv inf r).date = r.date ∧ (ratioFn bv inf r).sma50 = r.sma50
    ∧ (ratioFn bv inf r).sma200 = r.sma200
    ∧ (ratioFn bv inf r).high52w = r.high52w
    ∧ (ratioFn bv inf r).pct = r.pct := by
  unfold ratioFn
  match bv with
  | none => exact ⟨rfl, rfl, rfl, rfl, rfl⟩
  | some none => exact ⟨rfl, rfl, rfl, rfl, rfl⟩
  | some (some v) =>
    by_cases hc : v ≠ 0 ∧ 0 < v <;> simp [hc]

/-- C1 amended: for a non-empty price series with positive closes (and
uniquely-dated fundamentals reports, so the left join cannot duplicate
rows), `process_data` returns exactly N rows in ascending date order,
SMA50/SMA200 are the means of `close[i-49..i]` / `close[i-199..i]`, the
52-week-high column is the max of `close[i-251..i]`, and the
pct-from-high column equals `(close - max) / max * 100` on every row.
Positivity is needed: with a zero close the trailing max can be zero and
the pct column is NaN (see the counterexample). -/
theorem indicator_columns (raw : RawInput)
    (hne : raw.prices ≠ [])
    (hpos : ∀ b ∈ raw.prices, 0 < b.close)
    (hnodup : ∀ t, raw.fundamentals = some t → (t.frows.map Prod.fst).Nodup) :
    (process_data raw).rows.length = raw.prices.length
    ∧ (process_data raw).rows.map MetricsRow.date
        = (sortBars raw.prices).map Bar.date
    ∧ ((process_data raw).rows.map MetricsRow.date).Sorted (· ≤ ·)
    ∧ ∀ i, i < raw.prices.length →
        ((process_data raw).rows.getD i dfltRow).close
            = ((sortBars raw.prices).getD i dfltBar).close
        ∧ ((process_data raw).rows.getD i dfltRow).sma50
            = (specSlice ((sortBars raw.prices).map Bar.close) (i - 49) i).sum
              / (((specSlice ((sortBars raw.prices).map Bar.close)
                  (i - 49) i).length : Nat) : Rat)
        ∧ ((process_data raw).rows.getD i dfltRow).sma200
            = (specSlice ((sortBars raw.prices).map Bar.close) (i - 199) i).sum
              / (((specSlice ((sortBars raw.prices).map Bar.close)
                  (i - 199) i).length : Nat) : Rat)
        ∧ ((process_data raw).rows.getD i dfltRow).high52w
            = listMax (specSlice ((sortBars raw.prices).map Bar.close)
                (i - 251) i)
        ∧ ((process_data raw).rows.getD i dfltRow).pct
            = some ((((process_data raw).rows.getD i dfltRow).close
                  - ((process_data raw).rows.getD i dfltRow).high52w)
                / ((process_data raw).rows.getD i dfltRow).high52w * 100) := by
  have hpd := process_data_eq raw
  have hmo : mergedOf raw
      = mergeFund (addIndicators (sortBars raw.prices)) raw.fundamentals := rfl
  have hmb := mergeFund_base (addIndicators (sortBars raw.prices))
    raw.fundamentals hnodup
  rw [← hmo] at hmb
  have hslen : (sortBars raw.prices).length = raw.prices.length :=
    (sortBars_perm raw.prices).length_eq
  have hclen : ((sortBars raw.prices).map Bar.close).length
      = raw.prices.length := by
    rw [List.length_map, hslen]
  have hindlen : (addIndicators (sortBars raw.prices)).length
      = raw.prices.length := by
    rw [addIndicators_length, hslen]
  have hrowlen : (process_data raw).rows.length = raw.prices.length := by
    rw [hpd]
    dsimp only
    rw [List.length_map, hmb.1, hindlen]
  have hdates : (process_data raw).rows.map MetricsRow.date
      = (sortBars raw.prices).map Bar.date := by
    rw [hpd]
    dsimp only
    rw [List.map_map]
    have hstep : (mergedOf raw).2.map
        (MetricsRow.date ∘ ratioFn (resolvedBv raw) raw.info)
        = (mergedOf raw).2.map MetricsRow.date := by
      apply List.map_congr_left
      intro r _
      exact (ratioFn_keeps _ _ r).1
    rw [hstep, hmb.2.1, addIndicators_map_date]
  refine ⟨hrowlen, hdates, ?_, ?_⟩
  · rw [hdates, List.Sorted, List.pairwise_map]
    exact (sortBars_sorted raw.prices).imp (fun h => (dateLe_iff_le _ _).mp h)
  · intro i hi
    have hii : i < (addIndicators (sortBars raw.prices)).length := by
      rw [hindlen]; exact hi
    have him : i < (mergedOf raw).2.length := by
      rw [hmb.1]; exact hii
    have his : i < (sortBars raw.prices).length := by
      rw [hslen]; exact hi
    have hic : i < ((sortBars raw.prices).map Bar.close).length := by
      rw [hclen]; exact hi
    have hrow : (process_data raw).rows.getD i dfltRow
        = ratioFn (resolvedBv raw) raw.info ((mergedOf raw).2.getD i dfltRow) := by
      rw [hpd]
      exact getD_map_row _ _ him
    have hk := ratioFn_keeps (resolvedBv raw) raw.info
      ((mergedOf raw).2.getD i dfltRow)
    have hmbi := hmb.2.2 i hii
    have hind := addIndicators_getD (sortBars raw.prices) his
    -- the positive trailing max
    have hmaxpos : 0 < rollMaxAt 252 ((sortBars raw.prices).map Bar.close) i := by
      apply listMax_pos
      · exact rollingWindow_ne_nil 252 (by omega) _ i hic
      · intro x hx
        have hxc : x ∈ (sortBars raw.prices).map Bar.close :=
          rollingWindow_subset 252 _ i x hx
        obtain ⟨b, hb, hbx⟩ := List.mem_map.mp hxc
        rw [← hbx]
        exact hpos b ((sortBars_perm raw.prices).mem_iff.mp hb)
    have hindpct : ((addIndicators (sortBars raw.prices)).getD i dfltRow).pct
        = some ((((sortBars raw.prices).getD i dfltBar).close
            - rollMaxAt 252 ((sortBars raw.prices).map Bar.close) i)
          / rollMaxAt 252 ((sortBars raw.prices).map Bar.close) i * 100) := by
      rw [hind]
      unfold pctFromHigh
      rw [if_neg (ne_of_gt hmaxpos)]
    have hclose : ((process_data raw).rows.getD i dfltRow).close
        = ((sortBars raw.prices).getD i dfltBar).close := by
      rw [hrow, ratioFn_close, hmbi.1, hind]
    have hhigh : ((process_data raw).rows.getD i dfltRow).high52w
        = rollMaxAt 252 ((sortBars raw.prices).map Bar.close) i := by
      rw [hrow, hk.2.2.2.1, hmbi.2.2.2.1, hind]
    refine ⟨hclose, ?_, ?_, ?_, ?_⟩
    · rw [hrow, hk.2.1, hmbi.2.1, hind]
      show smaAt 50 _ i = _
      unfold smaAt
      rw [rollingWindow_eq_specSlice 50 _ i hic]
      have h49 : i + 1 - 50 = i - 49 := by omega
      rw [h49]
    · rw [hrow, hk.2.2.1, hmbi.2.2.1, hind]
      show smaAt 200 _ i = _
      unfold smaAt
      rw [rollingWindow_eq_specSlice 200 _ i hic]
      have h199 : i + 1 - 200 = i - 199 := by omega
      rw [h199]
    · rw [hhigh]
      show listMax (rollingWindow 252 _ i) = _
      rw [rollingWindow_eq_specSlice 252 _ i hic]
      have h251 : i + 1 - 252 = i - 251 := by omega
      rw [h251]
    · rw [hclose, hhigh]
      rw [hrow, hk.2.2.2.2]
      exact hmbi.2.2.2.2 _ hindpct

/-- A one-bar series whose close is zero (allowed by the schema: closes
are only required non-negative). -/
def c1zraw : RawInput := ⟨[⟨"2020-01-01", 0, 0, 0, 0, 0⟩], none, emptyInfo⟩

/-- C1 counterexample: with a zero close the trailing max is zero and the
pct-from-52w-high column is NaN (0/0), i.e. null — the four columns are
not all defined for every price series. -/
theorem c1_zero_close_pct_null :
    (process_data c1zraw).rows.length = 1
    ∧ ((process_data c1zraw).rows.getD 0 dfltRow).pct = none := by
  decide

def c1wraw : RawInput :=
  ⟨[⟨"2020-01-02", 1, 1, 1, 6, 10⟩, ⟨"2020-01-01", 1, 1, 1, 5, 10⟩],
   none, emptyInfo⟩

/-- C1 witness: the amended theorem at a two-bar positive series
(supplied out of order; the output is sorted). -/
theorem indicator_columns_witness :
    (process_data c1wraw).rows.length = c1wraw.prices.length
    ∧ (process_data c1wraw).rows.map MetricsRow.date
        = (sortBars c1wraw.prices).map Bar.date :=
  ⟨(indicator_columns c1wraw (by decide) (by decide)
      (fun t ht => by cases ht)).1,
   (indicator_columns c1wraw (by decide) (by decide)
      (fun t ht => by cases ht)).2.1⟩

/-! ## Forward-fill value characterization (C3) -/

theorem find?_eq_filter_head? {α : Type} (p : α → Bool) (l : List α) :
    l.find? p = (l.filter p).head? := by
  induction l with
  | nil => rfl
  | cons a t ih =>
    by_cases h : p a
    · rw [List.find?_cons_of_pos _ h, List.filter_cons_of_pos h]
      rfl
    · rw [List.find?_cons_of_neg _ (by simpa using h),
        List.filter_cons_of_neg (by simpa using h), ih]

theorem zip_pick_getD (xs ys : List (Option Rat)) (k : Nat)
    (hk : k < ys.length) (hlen : xs.length = ys.length) :
    ((xs.zip ys).map (fun q =>
        match q.1 with | some v => some v | none => q.2)).getD k none
      = match xs.getD k none with
        | some v => some v
        | none => ys.getD k none := by
  have hkx : k < xs.length := by omega
  have hkz : k < (xs.zip ys).length := by
    rw [List.length_zip]
    omega
  rw [List.getD_eq_getElem _ _ (by simpa using hkz), List.getElem_map,
    List.getElem_zip, List.getD_eq_getElem _ _ hkx,
    List.getD_eq_getElem _ _ hk]

/-- The value of column `k` at row `i` after forward-fill: the most
recent non-null value at or before `i`, falling back to the incoming
accumulator. -/
theorem ffillRows_fvals_getD :
    ∀ (rows : List MetricsRow) accP (accF : List (Option Rat)) i k,
    i < rows.length → k < accF.length →
    (∀ r ∈ rows, r.fvals.length = accF.length) →
    ((ffillRows accP accF rows).getD i dfltRow).fvals.getD k none
      = (match ((rows.take (i + 1)).reverse).findSome?
            (fun r => r.fvals.getD k none) with
         | some v => some v
         | none => accF.getD k none)
  | [], _, _, i, _, hi, _, _ => absurd hi (by simp)
  | r :: rest, accP, accF, 0, k, hi, hk, hlens => by
    unfold ffillRows
    simp only [List.getD_cons_zero, List.take_succ_cons, List.take_zero,
      List.reverse_cons, List.reverse_nil, List.nil_append,
      List.findSome?_cons, List.findSome?_nil]
    rw [zip_pick_getD r.fvals accF k hk
      (hlens r (List.mem_cons_self r rest))]
    cases r.fvals.getD k none <;> rfl
  | r :: rest, accP, accF, i + 1, k, hi, hk, hlens => by
    unfold ffillRows
    simp only [List.getD_cons_succ]
    have hfvlen : ((r.fvals.zip accF).map (fun q =>
        match q.1 with | some v => some v | none => q.2)).length
          = accF.length := by
      rw [List.length_map, List.length_zip,
        hlens r (List.mem_cons_self r rest), Nat.min_self]
    have hlens2 : ∀ x ∈ rest, x.fvals.length
        = ((r.fvals.zip accF).map (fun q =>
            match q.1 with | some v => some v | none => q.2)).length := by
      intro x hx
      rw [hfvlen]
      exact hlens x (List.mem_cons_of_mem r hx)
    have ih := ffillRows_fvals_getD rest
      (match r.pct with | some v => some v | none => accP)
      ((r.fvals.zip accF).map (fun q =>
        match q.1 with | some v => some v | none => q.2))
      i k (by simpa using hi) (by rw [hfvlen]; exact hk) hlens2
    rw [ih]
    rw [List.take_succ_cons, List.reverse_cons, List.findSome?_append]
    rw [zip_pick_getD r.fvals accF k hk
      (hlens r (List.mem_cons_self r rest))]
    cases hfa : ((rest.take (i + 1)).reverse).findSome?
        (fun r => r.fvals.getD k none) with
    | some v => rfl
    | none =>
      simp only [Option.orElse]
      simp only [List.findSome?_cons, List.findSome?_nil]
      cases r.fvals.getD k none <;> rfl

theorem cellAt_getD : ∀ (cols : List String) (vs : List (Option Rat)) (k : Nat),
    cols.Nodup → vs.length = cols.length → k < cols.length →
    cellAt cols vs (cols.getD k "") = vs.getD k none
  | [], _, k, _, _, hk => absurd hk (by simp)
  | c :: cs, vs, k, hnodup, hlen, hk => by
    cases vs with
    | nil => simp at hlen
    | cons v vt =>
      rw [List.nodup_cons] at hnodup
      cases k with
      | zero =>
        unfold cellAt
        simp only [List.zip_cons_cons, List.getD_cons_zero]
        rw [List.find?_cons_of_pos _ (by simp)]
        rfl
      | succ j =>
        have hj : j < cs.length := by simpa using hk
        have hmem : cs.getD j "" ∈ cs := by
          rw [List.getD_eq_getElem _ _ hj]
          exact List.getElem_mem hj
        have hcne : ¬ c = cs.getD j "" := fun h => hnodup.1 (h ▸ hmem)
        unfold cellAt
        simp only [List.zip_cons_cons, List.getD_cons_succ]
        rw [List.find?_cons_of_neg _ (by simpa using hcne)]
        exact cellAt_getD cs vt j hnodup.2 (by simpa using hlen) hj

theorem joinRow_fvals_length (t : FundTable) (r : MetricsRow) :
    (joinRow t r).fvals.length = t.cols.length := by
  unfold joinRow
  cases t.frows.filter (fun fr => fr.1 = r.date) with
  | nil => simp
  | cons fr rest => simp

theorem joinRow_fvals_getD (t : FundTable) (r : MetricsRow) (k : Nat)
    (hk : k < t.cols.length) (hnodup : (t.frows.map Prod.fst).Nodup) :
    (joinRow t r).fvals.getD k none
      = (t.frows.find? (fun fr => fr.1 = r.date)).bind
          (fun fr => cellAt t.cols fr.2 (t.cols.getD k "")) := by
  unfold joinRow
  rw [find?_eq_filter_head?]
  rcases filter_key_singleton t.frows hnodup r.date with h | ⟨fr, h⟩
  · rw [h]
    dsimp only
    rw [List.getD_eq_getElem _ _ (by simpa using hk), List.getElem_map]
    rfl
  · rw [h]
    dsimp only
    rw [List.getD_eq_getElem _ _ (by simpa using hk), List.getElem_map]
    rw [← List.getD_eq_getElem t.cols "" hk]
    rfl

theorem keepRecognized_props (t : FundTable) (hcnodup : t.cols.Nodup)
    (hlens : ∀ fr ∈ t.frows, fr.2.length = t.cols.length) :
    (keepRecognized t).cols.Nodup
    ∧ ∀ fr ∈ (keepRecognized t).frows,
        fr.2.length = (keepRecognized t).cols.length := by
  unfold keepRecognized
  by_cases h : (["TotalAssets", "TotalLiab", "OrdinarySharesNumber"].filter
      (fun c => t.cols.contains c)).isEmpty
  · rw [if_pos h]
    exact ⟨hcnodup, hlens⟩
  · rw [if_neg h]
    constructor
    · exact List.Nodup.filter _ (by decide)
    · intro fr hfr
      obtain ⟨r, _, hr⟩ := List.mem_map.mp hfr
      rw [← hr]
      simp

/-- The as-of value the spec's forward-fill contract describes: the value
carried by trading day `i` for column `k` — the most recent trading date
at or before `i` whose exact date matches a report with a non-null cell,
absent when there is none (in particular on days before the first
matching report). -/
def asofValue (dates : List String)
    (frows : List (String × List (Option Rat))) (i k : Nat) : Option Rat :=
  ((dates.take (i + 1)).reverse).findSome? (fun d =>
    (frows.find? (fun fr => fr.1 = d)).bind (fun fr => fr.2.getD k none))

/-- C3 amended: when a non-empty fundamentals frame with parseable,
unique report dates (and well-formed rows) is supplied, `process_data`
keeps only the recognized fields if at least one is present (ALL fields
when none is), joins reports to trading days by exact date match (a
report whose date is not a trading day is silently dropped by the left
join), and forward-fills so that day `i` carries the value of the most
recent trading date `<= i` exactly matching a report with a non-null
cell; days before the first matching report keep the field absent. -/
theorem fundamentals_merge_exact (raw : RawInput) (t : FundTable)
    (hf : raw.fundamentals = some t)
    (hne : ¬ (t.frows.isEmpty || t.cols.isEmpty) = true)
    (hdates : (t.frows.all (fun r => isIsoDate r.1)) = true)
    (hnodup : (t.frows.map Prod.fst).Nodup)
    (hcnodup : t.cols.Nodup)
    (hlens : ∀ fr ∈ t.frows, fr.2.length = t.cols.length) :
    ((process_data raw).fundCols
        = if (["TotalAssets", "TotalLiab", "OrdinarySharesNumber"].filter
              (fun c => t.cols.contains c)).isEmpty = true
          then t.cols
          else ["TotalAssets", "TotalLiab", "OrdinarySharesNumber"].filter
              (fun c => t.cols.contains c))
    ∧ ∀ i, i < (process_data raw).rows.length →
        ∀ k, k < (process_data raw).fundCols.length →
          ((process_data raw).rows.getD i dfltRow).fvals.getD k none
            = asofValue ((sortBars raw.prices).map Bar.date)
                (keepRecognized t).frows i k := by
  have hpd := process_data_eq raw
  have hknodup : ((keepRecognized t).frows.map Prod.fst).Nodup := by
    rw [keepRecognized_keys]
    exact hnodup
  have hkp := keepRecognized_props t hcnodup hlens
  have hm : mergedOf raw
      = ((keepRecognized t).cols,
          ffillRows none ((keepRecognized t).cols.map (fun _ => none))
            ((addIndicators (sortBars raw.prices)).map
              (joinRow (keepRecognized t)))) := by
    unfold mergedOf
    rw [hf]
    simp only [mergeFund, if_neg hne]
    rw [parseFundDates, if_pos hdates]
    dsimp only
    rw [leftJoin_eq_map _ _ hknodup]
  have hfc : (process_data raw).fundCols = (keepRecognized t).cols := by
    rw [hpd]
    dsimp only
    rw [hm]
  constructor
  · rw [hfc]
    unfold keepRecognized
    by_cases h : (["TotalAssets", "TotalLiab", "OrdinarySharesNumber"].filter
        (fun c => t.cols.contains c)).isEmpty = true
    · rw [if_pos h, if_pos h]
    · rw [if_neg h, if_neg h]
  · intro i hi k hk
    have hklen : k < (keepRecognized t).cols.length := by
      rw [hfc] at hk
      exact hk
    have hm2 : (mergedOf raw).2
        = ffillRows none ((keepRecognized t).cols.map (fun _ => none))
            ((addIndicators (sortBars raw.prices)).map
              (joinRow (keepRecognized t))) := by
      rw [hm]
    have hjlen : ((addIndicators (sortBars raw.prices)).map
        (joinRow (keepRecognized t))).length
          = (addIndicators (sortBars raw.prices)).length := by
      simp
    have hmlen : (mergedOf raw).2.length
        = ((addIndicators (sortBars raw.prices)).map
            (joinRow (keepRecognized t))).length := by
      rw [hm2, ffillRows_length]
    have him : i < (mergedOf raw).2.length := by
      rw [hpd] at hi
      simpa using hi
    have hij : i < ((addIndicators (sortBars raw.prices)).map
        (joinRow (keepRecognized t))).length := by
      rw [← hmlen]
      exact him
    have hrowi : (process_data raw).rows.getD i dfltRow
        = ratioFn (resolvedBv raw) raw.info ((mergedOf raw).2.getD i dfltRow) := by
      rw [hpd]
      exact getD_map_row _ _ him
    rw [hrowi, ratioFn_fvals, hm2]
    rw [ffillRows_fvals_getD _ none _ i k hij (by simpa using hklen) ?hlens2]
    case hlens2 =>
      intro r hr
      obtain ⟨r0, _, hr0⟩ := List.mem_map.mp hr
      rw [← hr0, joinRow_fvals_length]
      simp
    have hacc : (((keepRecognized t).cols.map
        (fun _ => (none : Option Rat))).getD k none) = none := by
      rw [List.getD_eq_getElem _ _ (by simpa using hklen), List.getElem_map]
    rw [hacc]
    have hfun : ∀ r : MetricsRow,
        (joinRow (keepRecognized t) r).fvals.getD k none
          = ((keepRecognized t).frows.find? (fun fr => fr.1 = r.date)).bind
              (fun fr => fr.2.getD k none) := by
      intro r
      rw [joinRow_fvals_getD _ _ k hklen hknodup]
      cases hfind : (keepRecognized t).frows.find? (fun fr => fr.1 = r.date) with
      | none => rfl
      | some fr =>
        dsimp only [Option.bind]
        exact cellAt_getD (keepRecognized t).cols fr.2 k hkp.1
          (hkp.2 fr (List.mem_of_find?_eq_some hfind)) hklen
    have hchain : ((((addIndicators (sortBars raw.prices)).map
          (joinRow (keepRecognized t))).take (i + 1)).reverse).findSome?
            (fun r => r.fvals.getD k none)
        = asofValue ((sortBars raw.prices).map Bar.date)
            (keepRecognized t).frows i k := by
      unfold asofValue
      rw [← addIndicators_map_date]
      rw [← List.map_take, ← List.map_reverse, List.findSome?_map]
      rw [← List.map_take, ← List.map_reverse, List.findSome?_map]
      congr 1
      funext r
      simp only [Function.comp_apply]
      exact hfun r
    rw [hchain]
    cases asofValue ((sortBars raw.prices).map Bar.date)
        (keepRecognized t).frows i k with
    | none => rfl
    | some v => rfl

/-- Two trading days around a report dated on a non-trading day. -/
def c3raw : RawInput :=
  ⟨[⟨"2020-01-02", 1, 1, 1, 5, 10⟩, ⟨"2020-01-04", 1, 1, 1, 6, 10⟩],
   some ⟨["TotalAssets"], [("2020-01-03", [some 5])]⟩, emptyInfo⟩

/-- C3 counterexample: the 2020-01-03 report falls on a non-trading day,
so the exact-date left join drops it entirely — the 2020-01-04 trading
day does NOT carry the most recent prior report's value (it stays null),
contradicting the claim. -/
theorem c3_nontrading_report_dropped :
    (process_data c3raw).fundCols = ["TotalAssets"]
    ∧ ((process_data c3raw).rows.getD 1 dfltRow).date = "2020-01-04"
    ∧ ((process_data c3raw).rows.getD 1 dfltRow).fvals = [none]
    ∧ ((process_data c3raw).rows.getD 1 dfltRow).fvals ≠ [some 5] := by
  decide

def c3wfund : FundTable := ⟨["TotalAssets"], [("2020-01-02", [some 9])]⟩

def c3wraw : RawInput :=
  ⟨[⟨"2020-01-02", 1, 1, 1, 5, 10⟩, ⟨"2020-01-03", 1, 1, 1, 6, 10⟩],
   some c3wfund, emptyInfo⟩

/-- C3 witness: the amended theorem at a report on a trading date. -/
theorem fundamentals_merge_witness :
    ((process_data c3wraw).rows.getD 1 dfltRow).fvals.getD 0 none
      = asofValue ((sortBars c3wraw.prices).map Bar.date)
          (keepRecognized c3wfund).frows 1 0 :=
  (fundamentals_merge_exact c3wraw c3wfund rfl (by decide) (by decide)
    (by decide) (by decide) (by decide)).2 1 (by decide) 0 (by decide)

/-- A table with SMA50 strictly below SMA200 at every row. -/
def c2wdf : List SignalRow :=
  [⟨"2020-01-01", 1, 2⟩, ⟨"2020-01-02", 1, 3⟩]

/-- C2 witness: the characterization's strictly-below consequence at a
concrete table. -/
theorem detect_crossover_witness :
    detect_golden_crossover c2wdf = [] ∧ detect_death_cross c2wdf = [] :=
  (detect_crossover_exact c2wdf).2.2.2.2 (by decide)

def c9full : List (List (String × Option Rat)) :=
  [[("SMA50", some 1), ("SMA200", some 1), ("52w_high", some 1),
    ("pct_from_52w_high", some 0), ("bvps", some 1), ("pb_ratio", some 1),
    ("enterprise_value", some 1)]]

def c9partial : List (List (String × Option Rat)) :=
  [[("SMA50", some 1), ("SMA200", some 1), ("52w_high", some 1),
    ("pct_from_52w_high", some 0), ("bvps", some 1), ("pb_ratio", some 1)]]

/-- C9 witness: the classification theorem applied to a complete latest
row and to one lacking only the enterprise value. -/
theorem assess_quality_witness :
    assess_data_quality c9full = "complete"
    ∧ assess_data_quality c9partial = "partial" :=
  ⟨(assess_data_quality_classification.2.1 c9full (by decide)).1.mpr
      (by decide),
   assess_data_quality_classification.2.2 c9partial (by decide) (by decide)
      (by decide)⟩

/-- C10 witness: disjointness applied to the distinct-date table. -/
theorem golden_death_disjoint_witness :
    "2020-01-05" ∉ detect_death_cross c8df :=
  golden_death_disjoint c8df (by decide) "2020-01-05" (by decide)

end FA
